import Mathlib

/-!
# Verification of the FloorAreaM geometry core (`src/app.py`)

Shallow embedding, over exact rationals, of the two "math engine" functions of
`src/app.py`:

* `order_points` — sorts four (or, in fact, any number of) 2-D points into the
  order top-left, top-right, bottom-right, bottom-left using the sum/difference
  extrema heuristic (`np.argmin`/`np.argmax`, which select the *first* index
  attaining the extremum);
* `calculate_real_area` — normalizes the paper and floor corner lists, solves
  the perspective transform mapping the paper corners onto a metric A4
  rectangle (`cv2.getPerspectiveTransform`), pushes the floor corners through
  it (`cv2.perspectiveTransform`) and returns the absolute shoelace area
  (`cv2.contourArea`).

Library calls are modelled by their exact-arithmetic semantics:

* `cv2.getPerspectiveTransform(src, dst)` builds the 8×8 linear system for the
  entries of a 3×3 matrix `M` with `M[2][2] = 1` such that `M` maps each
  source corner to the corresponding destination corner up to the homogeneous
  scale (`cv::solve` with `DECOMP_LU`).  When the system is uniquely solvable
  it returns that unique solution; when the elimination fails (degenerate
  corners) `cv::solve` zero-fills the output, so the returned matrix is all
  zeros except for the trailing `1`.  Here the solution is produced by a
  closed form (`rawH`, a projective basis change through the two quadrilaterals)
  and accepted only if it actually satisfies all eight correspondence
  equations, is normalized (`M.i = 1`) and is invertible (`det3 ≠ 0`) — which
  in exact arithmetic holds exactly when the 8×8 system is uniquely solvable —
  otherwise the zero-filled matrix `zeroSolveM3` is returned, as in OpenCV.
* `cv2.perspectiveTransform` divides by the homogeneous coordinate, mapping a
  point with vanishing homogeneous coordinate to `(0, 0)` (OpenCV multiplies
  by `w ≠ 0 ? 1/w : 0`); rational division by zero gives the same result.
* `cv2.contourArea` sums cross products over the closed vertex cycle and
  returns half model absolute value.

Floating-point rounding is idealized away: all coordinates and arithmetic are
exact rationals; the float32 pipeline of the original computes the same
quantities up to rounding.
-/

namespace FloorAreaM

/-- A 2-D point: pixel (or metric) x/y coordinates. -/
abbrev Pt := ℚ × ℚ

/-- A quadruple of points in the canonical row order of the `rect` array
produced by `order_points`: (top-left, top-right, bottom-right, bottom-left). -/
abbrev Quad := Pt × Pt × Pt × Pt

/-- `pts.sum(axis=1)` for one row: the coordinate sum `x + y`. -/
def sSum (p : Pt) : ℚ := p.1 + p.2

/-- `np.diff(pts, axis=1)` for one row: the difference `y - x`. -/
def dDiff (p : Pt) : ℚ := p.2 - p.1

/-- `pts[np.argmin(f(pts))]` on the non-empty list `p :: ps`: the first element
attaining the minimum of `f` (`np.argmin` returns the first minimizing index,
so the accumulator is replaced only on strict improvement). -/
def pickMin (f : Pt → ℚ) (p : Pt) (ps : List Pt) : Pt :=
  ps.foldl (fun b q => if f q < f b then q else b) p

/-- `pts[np.argmax(f(pts))]` on the non-empty list `p :: ps`: the first element
attaining the maximum of `f`. -/
def pickMax (f : Pt → ℚ) (p : Pt) (ps : List Pt) : Pt :=
  ps.foldl (fun b q => if f b < f q then q else b) p

/-- The only exception the geometry core itself can raise: `np.argmin` /
`np.argmax` fail (`ValueError`) on an empty coordinate array.  The Python code
defines no further error type — in particular no `InvalidInputError` and no
`DegenerateGeometryError` exist anywhere in `src/app.py`. -/
inductive CalcError : Type
  | emptyInput : CalcError
deriving DecidableEq

/-- `order_points(pts)` from `src/app.py`: `rect[0]` is the point of smallest
coordinate sum, `rect[2]` the one of largest sum, `rect[1]` the one of
smallest difference `y - x`, `rect[3]` the one of largest difference; ties are
resolved to the first occurrence, as `np.argmin`/`np.argmax` do.  Any
non-empty list is accepted (the Python function never checks the length); an
empty list raises. -/
def order_points : List Pt → Except CalcError Quad
  | [] => .error .emptyInput
  | p :: ps =>
      .ok (pickMin sSum p ps, pickMin dDiff p ps, pickMax sSum p ps, pickMax dDiff p ps)

/-- An explicit 3×3 rational matrix, row major:
`[[a, b, c], [d, e, f], [g, h, i]]`. -/
structure M3 : Type where
  a : ℚ
  b : ℚ
  c : ℚ
  d : ℚ
  e : ℚ
  f : ℚ
  g : ℚ
  h : ℚ
  i : ℚ
deriving DecidableEq

/-- Matrix product of two explicit 3×3 matrices. -/
def mul3 (X Y : M3) : M3 :=
  ⟨X.a * Y.a + X.b * Y.d + X.c * Y.g,
   X.a * Y.b + X.b * Y.e + X.c * Y.h,
   X.a * Y.c + X.b * Y.f + X.c * Y.i,
   X.d * Y.a + X.e * Y.d + X.f * Y.g,
   X.d * Y.b + X.e * Y.e + X.f * Y.h,
   X.d * Y.c + X.e * Y.f + X.f * Y.i,
   X.g * Y.a + X.h * Y.d + X.i * Y.g,
   X.g * Y.b + X.h * Y.e + X.i * Y.h,
   X.g * Y.c + X.h * Y.f + X.i * Y.i⟩

/-- Scalar multiple of an explicit 3×3 matrix. -/
def smul3 (c : ℚ) (X : M3) : M3 :=
  ⟨c * X.a, c * X.b, c * X.c, c * X.d, c * X.e, c * X.f, c * X.g, c * X.h, c * X.i⟩

/-- Determinant of an explicit 3×3 matrix. -/
def det3 (X : M3) : ℚ :=
  X.a * (X.e * X.i - X.f * X.h) - X.b * (X.d * X.i - X.f * X.g)
    + X.c * (X.d * X.h - X.e * X.g)

/-- Adjugate (transposed cofactor matrix) of an explicit 3×3 matrix;
`mul3 (adj3 X) X = smul3 (det3 X) 1`. -/
def adj3 (X : M3) : M3 :=
  ⟨X.e * X.i - X.f * X.h, X.c * X.h - X.b * X.i, X.b * X.f - X.c * X.e,
   X.f * X.g - X.d * X.i, X.a * X.i - X.c * X.g, X.c * X.d - X.a * X.f,
   X.d * X.h - X.e * X.g, X.b * X.g - X.a * X.h, X.a * X.e - X.b * X.d⟩

/-- Determinant of the homogeneous 3×3 matrix whose rows are `(p, 1)`,
`(q, 1)`, `(r, 1)`; vanishes exactly when the three points are collinear. -/
def det3pts (p q r : Pt) : ℚ :=
  (q.1 - p.1) * (r.2 - p.2) - (r.1 - p.1) * (q.2 - p.2)

/-- The projective basis-change matrix of a quadrilateral: its columns are the
Cramer multiples `A₁·v₁ | A₂·v₂ | A₃·v₃` of the homogeneous corner vectors, so
that it maps the standard projective basis `e₁, e₂, e₃, e₁+e₂+e₃` onto the
four corners (`A₁v₁ + A₂v₂ + A₃v₃ = D·v₄` is the Cramer identity). -/
def quadBasis (q : Quad) : M3 :=
  let A1 := det3pts q.2.2.2 q.2.1 q.2.2.1
  let A2 := det3pts q.1 q.2.2.2 q.2.2.1
  let A3 := det3pts q.1 q.2.1 q.2.2.2
  ⟨A1 * q.1.1, A2 * q.2.1.1, A3 * q.2.2.1.1,
   A1 * q.1.2, A2 * q.2.1.2, A3 * q.2.2.1.2,
   A1, A2, A3⟩

/-- Unnormalized candidate for the perspective transform from `src` onto
`dst`: the composite of the basis change onto `dst` with the adjugate (scaled
inverse) of the basis change onto `src`.  On solvable configurations this is a
non-zero scalar multiple of the unique solution of OpenCV's 8×8 system. -/
def rawH (src dst : Quad) : M3 := mul3 (quadBasis dst) (adj3 (quadBasis src))

/-- Rescale a matrix so that its bottom-right entry is `1` (rational division,
so a matrix with vanishing bottom-right entry collapses to the zero matrix). -/
def normH (X : M3) : M3 := smul3 X.i⁻¹ X

/-- One correspondence constraint of OpenCV's `getPerspectiveTransform`
system: the matrix maps the homogeneous source corner to the destination
corner scaled by the homogeneous coordinate. -/
def satEq (p q : Pt) (M : M3) : Prop :=
  M.a * p.1 + M.b * p.2 + M.c = q.1 * (M.g * p.1 + M.h * p.2 + M.i)
    ∧ M.d * p.1 + M.e * p.2 + M.f = q.2 * (M.g * p.1 + M.h * p.2 + M.i)

instance (p q : Pt) (M : M3) : Decidable (satEq p q M) := by
  unfold satEq; infer_instance

/-- All four correspondence constraints of the 8×8 system. -/
def satisfiesEqs (src dst : Quad) (M : M3) : Prop :=
  satEq src.1 dst.1 M ∧ satEq src.2.1 dst.2.1 M
    ∧ satEq src.2.2.1 dst.2.2.1 M ∧ satEq src.2.2.2 dst.2.2.2 M

instance (src dst : Quad) (M : M3) : Decidable (satisfiesEqs src dst M) := by
  unfold satisfiesEqs; infer_instance

/-- Success condition of `cv::solve` on the perspective system, expressed on
the candidate matrix: it satisfies all eight equations, is normalized
(`M.i = 1`, the system fixes the bottom-right entry to `1`) and is invertible.
In exact arithmetic this holds for the closed-form candidate exactly when the
8×8 system is uniquely solvable. -/
def solveOk (src dst : Quad) (M : M3) : Prop :=
  satisfiesEqs src dst M ∧ M.i = 1 ∧ det3 M ≠ 0

instance (src dst : Quad) (M : M3) : Decidable (solveOk src dst M) := by
  unfold solveOk; infer_instance

/-- The matrix `cv::solve` leaves behind when LU elimination fails on a
singular system: the eight unknowns are zero-filled and
`getPerspectiveTransform` sets the ninth entry to `1`. -/
def zeroSolveM3 : M3 := ⟨0, 0, 0, 0, 0, 0, 0, 0, 1⟩

/-- Model of `cv2.getPerspectiveTransform(src, dst)`: the unique normalized
solution of the 8×8 correspondence system when it exists, and the zero-filled
matrix when elimination fails. -/
def getPerspectiveTransform (src dst : Quad) : M3 :=
  let C := normH (rawH src dst)
  if solveOk src dst C then C else zeroSolveM3

/-- The destination rectangle `dst_pts` of `src/app.py`: the real-world A4
sheet, `0.210 m × 0.297 m`, corners in the order
`[0,0], [0.210,0], [0.210,0.297], [0,0.297]`. -/
def dstA4 : Quad :=
  ((0, 0), (21 / 100, 0), (21 / 100, 297 / 1000), (0, 297 / 1000))

/-- Model of `cv2.perspectiveTransform` on one point: apply the matrix to the
homogeneous coordinates and divide by the homogeneous component (OpenCV maps a
point with vanishing homogeneous component to `(0,0)`, which rational division
by zero reproduces). -/
def perspApply (M : M3) (p : Pt) : Pt :=
  ((M.a * p.1 + M.b * p.2 + M.c) / (M.g * p.1 + M.h * p.2 + M.i),
   (M.d * p.1 + M.e * p.2 + M.f) / (M.g * p.1 + M.h * p.2 + M.i))

/-- Cross product of two 2-D vectors. -/
def cross2 (u v : Pt) : ℚ := u.1 * v.2 - u.2 * v.1

/-- Consecutive vertex pairs of the closed polygon cycle. -/
def cyclePairs (l : List Pt) : List (Pt × Pt) := l.zip (l.drop 1 ++ l.take 1)

/-- Model of `cv2.contourArea(pts)` (default `oriented=false`): half the
absolute value of the summed cross products over the closed vertex cycle. -/
def contourArea (l : List Pt) : ℚ :=
  |((cyclePairs l).map fun pq => cross2 pq.1 pq.2).sum| / 2

/-- The four rows of `floor_rect` after `reshape(-1, 1, 2)`, pushed through
the perspective transform, as a vertex list. -/
def floorPoly (M : M3) (fr : Quad) : List Pt :=
  [perspApply M fr.1, perspApply M fr.2.1, perspApply M fr.2.2.1, perspApply M fr.2.2.2]

/-- `calculate_real_area(paper_pts, floor_pts)` from `src/app.py`: order both
corner lists, solve the perspective transform from the ordered paper corners
onto the metric A4 rectangle, map the ordered floor corners to metric space
and return their contour area in square meters. -/
def calculate_real_area (paper_pts floor_pts : List Pt) : Except CalcError ℚ :=
  match order_points paper_pts, order_points floor_pts with
  | .error ε, _ => .error ε
  | .ok _, .error ε => .error ε
  | .ok paper_rect, .ok floor_rect =>
      let matrix := getPerspectiveTransform paper_rect dstA4
      .ok (contourArea (floorPoly matrix floor_rect))

/-- `m` is the unique strict minimizer of `f` on `l` (up to coordinate
equality: duplicate copies of the extremal point are allowed). -/
def IsStrictMin (f : Pt → ℚ) (l : List Pt) (m : Pt) : Prop :=
  m ∈ l ∧ ∀ q ∈ l, q ≠ m → f m < f q

/-- `m` is the unique strict maximizer of `f` on `l`. -/
def IsStrictMax (f : Pt → ℚ) (l : List Pt) (m : Pt) : Prop :=
  m ∈ l ∧ ∀ q ∈ l, q ≠ m → f q < f m

/-- A direct similarity of the pixel plane: rotation/uniform scaling with
linear part `[[p, -q], [q, p]]` followed by the translation `(t1, t2)`. -/
def simT (p q t1 t2 : ℚ) (v : Pt) : Pt :=
  (p * v.1 - q * v.2 + t1, q * v.1 + p * v.2 + t2)

/-- The homogeneous 3×3 matrix of `simT`. -/
def simM3 (p q t1 t2 : ℚ) : M3 := ⟨p, -q, t1, q, p, t2, 0, 0, 1⟩

/-- Apply a point transform to all four corners of a quadruple. -/
def mapQuad (T : Pt → Pt) (qd : Quad) : Quad :=
  (T qd.1, T qd.2.1, T qd.2.2.1, T qd.2.2.2)

/-- The corner quadruple of the axis-aligned `W × H` rectangle anchored at the
pixel origin, already in canonical order. -/
def rectQuad (W H : ℚ) : Quad := ((0, 0), (W, 0), (W, H), (0, H))

/-- The spec's shoelace formula `½·|Σ (xᵢ·yᵢ₊₁ − xᵢ₊₁·yᵢ)|` over the ordered
vertex cycle, written out on four vertices (comparison definition for the
Area Estimator contract, following the spec's wording). -/
def shoelaceSpec (p0 p1 p2 p3 : Pt) : ℚ :=
  |p0.1 * p1.2 - p1.1 * p0.2 + (p1.1 * p2.2 - p2.1 * p1.2)
    + (p2.1 * p3.2 - p3.1 * p2.2) + (p3.1 * p0.2 - p0.1 * p3.2)| / 2

instance : DecidableEq (Except CalcError ℚ) := fun x y =>
  match x, y with
  | .ok A, .ok B => decidable_of_iff (A = B) (by simp)
  | .ok _, .error _ => isFalse (by simp)
  | .error _, .ok _ => isFalse (by simp)
  | .error ε, .error ε' => decidable_of_iff (ε = ε') (by simp)

instance : DecidableEq (Except CalcError Quad) := fun x y =>
  match x, y with
  | .ok A, .ok B => decidable_of_iff (A = B) (by simp)
  | .ok _, .error _ => isFalse (by simp)
  | .error _, .ok _ => isFalse (by simp)
  | .error ε, .error ε' => decidable_of_iff (ε = ε') (by simp)

/-! ## Selection lemmas for the argmin/argmax folds -/

/-- The accumulator-generalized fold of `pickMin` yields the accumulator or a
list element. -/
theorem pickMin_fold_mem (f : Pt → ℚ) :
    ∀ (ps : List Pt) (b : Pt),
      ps.foldl (fun b' q => if f q < f b' then q else b') b = b ∨
        ps.foldl (fun b' q => if f q < f b' then q else b') b ∈ ps := by
  intro ps
  induction ps with
  | nil => intro b; left; rfl
  | cons q qs ih =>
      intro b
      rcases ih (if f q < f b then q else b) with h | h
      · by_cases hc : f q < f b
        · right
          rw [List.foldl_cons, h, if_pos hc]
          exact List.mem_cons_self q qs
        · left
          rw [List.foldl_cons, h, if_neg hc]
      · right
        exact List.mem_cons_of_mem q h

/-- The accumulator-generalized fold of `pickMax` yields the accumulator or a
list element. -/
theorem pickMax_fold_mem (f : Pt → ℚ) :
    ∀ (ps : List Pt) (b : Pt),
      ps.foldl (fun b' q => if f b' < f q then q else b') b = b ∨
        ps.foldl (fun b' q => if f b' < f q then q else b') b ∈ ps := by
  intro ps
  induction ps with
  | nil => intro b; left; rfl
  | cons q qs ih =>
      intro b
      rcases ih (if f b < f q then q else b) with h | h
      · by_cases hc : f b < f q
        · right
          rw [List.foldl_cons, h, if_pos hc]
          exact List.mem_cons_self q qs
        · left
          rw [List.foldl_cons, h, if_neg hc]
      · right
        exact List.mem_cons_of_mem q h

/-- `pickMin` selects an element of the (non-empty) input list. -/
theorem pickMin_mem (f : Pt → ℚ) (p : Pt) (ps : List Pt) :
    pickMin f p ps ∈ p :: ps := by
  rcases pickMin_fold_mem f ps p with h | h
  · rw [pickMin, h]; exact List.mem_cons_self p ps
  · exact List.mem_cons_of_mem p h

/-- `pickMax` selects an element of the (non-empty) input list. -/
theorem pickMax_mem (f : Pt → ℚ) (p : Pt) (ps : List Pt) :
    pickMax f p ps ∈ p :: ps := by
  rcases pickMax_fold_mem f ps p with h | h
  · rw [pickMax, h]; exact List.mem_cons_self p ps
  · exact List.mem_cons_of_mem p h

/-- The `pickMin` fold result is `f`-below the accumulator and every list
element. -/
theorem pickMin_fold_le (f : Pt → ℚ) :
    ∀ (ps : List Pt) (b : Pt),
      f (ps.foldl (fun b' q => if f q < f b' then q else b') b) ≤ f b ∧
        ∀ q ∈ ps, f (ps.foldl (fun b' q => if f q < f b' then q else b') b) ≤ f q := by
  intro ps
  induction ps with
  | nil => intro b; exact ⟨le_refl _, by intro q hq; exact absurd hq (List.not_mem_nil q)⟩
  | cons q qs ih =>
      intro b
      rcases ih (if f q < f b then q else b) with ⟨h1, h2⟩
      have hb : f (if f q < f b then q else b) ≤ f b := by
        by_cases hc : f q < f b
        · rw [if_pos hc]; exact le_of_lt hc
        · rw [if_neg hc]
      have hq : f (if f q < f b then q else b) ≤ f q := by
        by_cases hc : f q < f b
        · rw [if_pos hc]
        · rw [if_neg hc]; exact le_of_not_lt hc
      refine ⟨le_trans h1 hb, ?_⟩
      intro r hr
      rcases List.mem_cons.mp hr with h | h
      · subst h; exact le_trans h1 hq
      · exact h2 r h

/-- The `pickMax` fold result is `f`-above the accumulator and every list
element. -/
theorem pickMax_fold_ge (f : Pt → ℚ) :
    ∀ (ps : List Pt) (b : Pt),
      f b ≤ f (ps.foldl (fun b' q => if f b' < f q then q else b') b) ∧
        ∀ q ∈ ps, f q ≤ f (ps.foldl (fun b' q => if f b' < f q then q else b') b) := by
  intro ps
  induction ps with
  | nil => intro b; exact ⟨le_refl _, by intro q hq; exact absurd hq (List.not_mem_nil q)⟩
  | cons q qs ih =>
      intro b
      rcases ih (if f b < f q then q else b) with ⟨h1, h2⟩
      have hb : f b ≤ f (if f b < f q then q else b) := by
        by_cases hc : f b < f q
        · rw [if_pos hc]; exact le_of_lt hc
        · rw [if_neg hc]
      have hq : f q ≤ f (if f b < f q then q else b) := by
        by_cases hc : f b < f q
        · rw [if_pos hc]
        · rw [if_neg hc]; exact le_of_not_lt hc
      refine ⟨le_trans hb h1, ?_⟩
      intro r hr
      rcases List.mem_cons.mp hr with h | h
      · subst h; exact le_trans hq h1
      · exact h2 r h

/-- `pickMin` attains the minimum of `f` over the input list. -/
theorem pickMin_le (f : Pt → ℚ) (p : Pt) (ps : List Pt) :
    ∀ q ∈ p :: ps, f (pickMin f p ps) ≤ f q := by
  intro q hq
  rcases List.mem_cons.mp hq with h | h
  · subst h; exact (pickMin_fold_le f ps q).1
  · exact (pickMin_fold_le f ps p).2 q h

/-- `pickMax` attains the maximum of `f` over the input list. -/
theorem pickMax_ge (f : Pt → ℚ) (p : Pt) (ps : List Pt) :
    ∀ q ∈ p :: ps, f q ≤ f (pickMax f p ps) := by
  intro q hq
  rcases List.mem_cons.mp hq with h | h
  · subst h; exact (pickMax_fold_ge f ps q).1
  · exact (pickMax_fold_ge f ps p).2 q h

/-- With a unique strict minimizer, `pickMin` is tie-break independent and
returns it. -/
theorem pickMin_eq_of_strict (f : Pt → ℚ) (p : Pt) (ps : List Pt) (m : Pt)
    (hm : IsStrictMin f (p :: ps) m) : pickMin f p ps = m := by
  by_contra hne
  have h1 : pickMin f p ps ∈ p :: ps := pickMin_mem f p ps
  have h2 : f (pickMin f p ps) ≤ f m := pickMin_le f p ps m hm.1
  exact absurd (hm.2 _ h1 hne) (not_lt.mpr h2)

/-- With a unique strict maximizer, `pickMax` is tie-break independent and
returns it. -/
theorem pickMax_eq_of_strict (f : Pt → ℚ) (p : Pt) (ps : List Pt) (m : Pt)
    (hm : IsStrictMax f (p :: ps) m) : pickMax f p ps = m := by
  by_contra hne
  have h1 : pickMax f p ps ∈ p :: ps := pickMax_mem f p ps
  have h2 : f m ≤ f (pickMax f p ps) := pickMax_ge f p ps m hm.1
  exact absurd (hm.2 _ h1 hne) (not_lt.mpr h2)

/-- On a list with unique strict extrema, `order_points` returns exactly the
four extremal points in the canonical order. -/
theorem order_points_eq_of_strict (pts : List Pt) (α γ β δ : Pt)
    (h1 : IsStrictMin sSum pts α) (h2 : IsStrictMin dDiff pts γ)
    (h3 : IsStrictMax sSum pts β) (h4 : IsStrictMax dDiff pts δ) :
    order_points pts = .ok (α, γ, β, δ) := by
  cases pts with
  | nil => exact absurd h1.1 (List.not_mem_nil α)
  | cons p ps =>
      simp only [order_points, Except.ok.injEq]
      rw [pickMin_eq_of_strict sSum p ps α h1, pickMin_eq_of_strict dDiff p ps γ h2,
        pickMax_eq_of_strict sSum p ps β h3, pickMax_eq_of_strict dDiff p ps δ h4]

/-- Strict extrema transfer along permutations of the point list. -/
theorem isStrictMin_of_perm {f : Pt → ℚ} {l l' : List Pt} {m : Pt}
    (hp : l.Perm l') (h : IsStrictMin f l m) : IsStrictMin f l' m :=
  ⟨hp.mem_iff.mp h.1, fun q hq hne => h.2 q (hp.mem_iff.mpr hq) hne⟩

/-- Strict extrema transfer along permutations of the point list. -/
theorem isStrictMax_of_perm {f : Pt → ℚ} {l l' : List Pt} {m : Pt}
    (hp : l.Perm l') (h : IsStrictMax f l m) : IsStrictMax f l' m :=
  ⟨hp.mem_iff.mp h.1, fun q hq hne => h.2 q (hp.mem_iff.mpr hq) hne⟩

/-- The four points selected by `order_points` are members of the input. -/
theorem order_points_mem (pts : List Pt) (q : Quad)
    (hq : order_points pts = .ok q) :
    q.1 ∈ pts ∧ q.2.1 ∈ pts ∧ q.2.2.1 ∈ pts ∧ q.2.2.2 ∈ pts := by
  cases pts with
  | nil => simp [order_points] at hq
  | cons p ps =>
      simp only [order_points, Except.ok.injEq] at hq
      rw [← hq]
      exact ⟨pickMin_mem sSum p ps, pickMin_mem dDiff p ps,
        pickMax_mem sSum p ps, pickMax_mem dDiff p ps⟩

/-! ## Algebra of explicit 3×3 matrices -/

/-- Matrix multiplication is associative. -/
theorem mul3_assoc (X Y Z : M3) : mul3 (mul3 X Y) Z = mul3 X (mul3 Y Z) := by
  obtain ⟨xa, xb, xc, xd, xe, xf, xg, xh, xi⟩ := X
  obtain ⟨ya, yb, yc, yd, ye, yf, yg, yh, yi⟩ := Y
  obtain ⟨za, zb, zc, zd, ze, zf, zg, zh, zi⟩ := Z
  simp only [mul3, M3.mk.injEq]
  refine ⟨by ring, by ring, by ring, by ring, by ring, by ring, by ring, by ring, by ring⟩

/-- Scalars slide out of the right factor of a product. -/
theorem mul3_smul3_right (c : ℚ) (X Y : M3) :
    mul3 X (smul3 c Y) = smul3 c (mul3 X Y) := by
  obtain ⟨xa, xb, xc, xd, xe, xf, xg, xh, xi⟩ := X
  obtain ⟨ya, yb, yc, yd, ye, yf, yg, yh, yi⟩ := Y
  simp only [mul3, smul3, M3.mk.injEq]
  refine ⟨by ring, by ring, by ring, by ring, by ring, by ring, by ring, by ring, by ring⟩

/-- The adjugate is multiplicative with reversed order. -/
theorem adj3_mul3 (X Y : M3) : adj3 (mul3 X Y) = mul3 (adj3 Y) (adj3 X) := by
  obtain ⟨xa, xb, xc, xd, xe, xf, xg, xh, xi⟩ := X
  obtain ⟨ya, yb, yc, yd, ye, yf, yg, yh, yi⟩ := Y
  simp only [mul3, adj3, M3.mk.injEq]
  refine ⟨by ring, by ring, by ring, by ring, by ring, by ring, by ring, by ring, by ring⟩

/-- The adjugate of a scalar multiple. -/
theorem adj3_smul3 (c : ℚ) (X : M3) : adj3 (smul3 c X) = smul3 (c ^ 2) (adj3 X) := by
  obtain ⟨xa, xb, xc, xd, xe, xf, xg, xh, xi⟩ := X
  simp only [adj3, smul3, M3.mk.injEq]
  refine ⟨by ring, by ring, by ring, by ring, by ring, by ring, by ring, by ring, by ring⟩

/-- A matrix that kills an affine point `(x, y, 1)` is singular. -/
theorem det3_eq_zero_of_app (M : M3) (x y : ℚ)
    (h1 : M.a * x + M.b * y + M.c = 0) (h2 : M.d * x + M.e * y + M.f = 0)
    (h3 : M.g * x + M.h * y + M.i = 0) : det3 M = 0 := by
  simp only [det3]
  linear_combination (M.d * M.h - M.e * M.g) * h1 - (M.a * M.h - M.b * M.g) * h2
    + (M.a * M.e - M.b * M.d) * h3

/-- Normalization is insensitive to non-zero scalar multiples. -/
theorem normH_smul3 (c : ℚ) (hc : c ≠ 0) (X : M3) : normH (smul3 c X) = normH X := by
  have key : ∀ z w : ℚ, (c * z)⁻¹ * (c * w) = z⁻¹ * w := by
    intro z w
    rw [mul_inv, show c⁻¹ * z⁻¹ * (c * w) = c⁻¹ * c * (z⁻¹ * w) from by ring,
      inv_mul_cancel₀ hc, one_mul]
  obtain ⟨xa, xb, xc, xd, xe, xf, xg, xh, xi⟩ := X
  simp only [normH, smul3, M3.mk.injEq]
  exact ⟨key xi xa, key xi xb, key xi xc, key xi xd, key xi xe, key xi xf,
    key xi xg, key xi xh, key xi xi⟩

/-- The perspective division is insensitive to non-zero scalar multiples of
the matrix. -/
theorem perspApply_smul3 (c : ℚ) (hc : c ≠ 0) (M : M3) (v : Pt) :
    perspApply (smul3 c M) v = perspApply M v := by
  simp only [perspApply, smul3, Prod.mk.injEq]
  constructor
  · rw [show c * M.a * v.1 + c * M.b * v.2 + c * M.c
        = c * (M.a * v.1 + M.b * v.2 + M.c) from by ring,
      show c * M.g * v.1 + c * M.h * v.2 + c * M.i
        = c * (M.g * v.1 + M.h * v.2 + M.i) from by ring,
      mul_div_mul_left _ _ hc]
  · rw [show c * M.d * v.1 + c * M.e * v.2 + c * M.f
        = c * (M.d * v.1 + M.e * v.2 + M.f) from by ring,
      show c * M.g * v.1 + c * M.h * v.2 + c * M.i
        = c * (M.g * v.1 + M.h * v.2 + M.i) from by ring,
      mul_div_mul_left _ _ hc]

/-! ## Similarity transforms of the pixel plane -/

/-- The basis-change matrix of a transformed quadrilateral factors through the
similarity matrix. -/
theorem quadBasis_mapQuad (p q t1 t2 : ℚ) (qd : Quad) :
    quadBasis (mapQuad (simT p q t1 t2) qd) =
      smul3 (p ^ 2 + q ^ 2) (mul3 (simM3 p q t1 t2) (quadBasis qd)) := by
  obtain ⟨⟨x1, y1⟩, ⟨x2, y2⟩, ⟨x3, y3⟩, ⟨x4, y4⟩⟩ := qd
  simp only [mapQuad, simT, simM3, quadBasis, det3pts, mul3, smul3, M3.mk.injEq]
  refine ⟨by ring, by ring, by ring, by ring, by ring, by ring, by ring, by ring, by ring⟩

/-- The unnormalized perspective candidate of a transformed source
quadrilateral is a scalar multiple of the original candidate composed with
the adjugate of the similarity. -/
theorem rawH_mapQuad (p q t1 t2 : ℚ) (qd dst : Quad) :
    rawH (mapQuad (simT p q t1 t2) qd) dst =
      smul3 ((p ^ 2 + q ^ 2) ^ 2)
        (mul3 (rawH qd dst) (adj3 (simM3 p q t1 t2))) := by
  rw [rawH, quadBasis_mapQuad, adj3_smul3, adj3_mul3, mul3_smul3_right, rawH, mul3_assoc]

/-- Composing the candidate with the adjugate similarity and evaluating at
the transformed point reproduces the original perspective image. -/
theorem perspApply_simT (p q t1 t2 : ℚ) (hpq : p ^ 2 + q ^ 2 ≠ 0) (X : M3) (v : Pt) :
    perspApply (mul3 X (adj3 (simM3 p q t1 t2))) (simT p q t1 t2 v) =
      perspApply X v := by
  have key : ∀ A B A' B' : ℚ, A = (p ^ 2 + q ^ 2) * A' → B = (p ^ 2 + q ^ 2) * B' →
      A / B = A' / B' := by
    intro A B A' B' hA hB
    rw [hA, hB, mul_div_mul_left _ _ hpq]
  obtain ⟨v1, v2⟩ := v
  obtain ⟨xa, xb, xc, xd, xe, xf, xg, xh, xi⟩ := X
  simp only [perspApply, mul3, adj3, simM3, simT, Prod.mk.injEq]
  exact ⟨key _ _ _ _ (by ring) (by ring), key _ _ _ _ (by ring) (by ring)⟩

/-- Two explicit 3×3 matrices with equal entries are equal. -/
theorem m3_ext {X Y : M3} (ha : X.a = Y.a) (hb : X.b = Y.b) (hc : X.c = Y.c)
    (hd : X.d = Y.d) (he : X.e = Y.e) (hf : X.f = Y.f) (hg : X.g = Y.g)
    (hh : X.h = Y.h) (hi : X.i = Y.i) : X = Y := by
  cases X
  cases Y
  simp only [M3.mk.injEq]
  exact ⟨ha, hb, hc, hd, he, hf, hg, hh, hi⟩

/-- When the candidate passes the solvability check, `getPerspectiveTransform`
returns it. -/
theorem getPersp_eq_of_ok (src dst : Quad)
    (h : solveOk src dst (normH (rawH src dst))) :
    getPerspectiveTransform src dst = normH (rawH src dst) := by
  simp only [getPerspectiveTransform]
  rw [if_pos h]

/-- When the solvability check fails, `getPerspectiveTransform` returns the
zero-filled matrix, as `cv::solve` does on a singular system. -/
theorem getPersp_eq_zero_of_not (src dst : Quad)
    (h : ¬ solveOk src dst (normH (rawH src dst))) :
    getPerspectiveTransform src dst = zeroSolveM3 := by
  simp only [getPerspectiveTransform]
  rw [if_neg h]

/-! ## The axis-aligned reference rectangle -/

/-- `order_points` leaves the canonical corner list of a non-degenerate
axis-aligned rectangle unchanged. -/
theorem rect_order (W H : ℚ) (hW : 0 < W) (hH : 0 < H) :
    order_points [(0, 0), (W, 0), (W, H), (0, H)] = .ok (rectQuad W H) := by
  apply order_points_eq_of_strict
  · refine ⟨by simp, ?_⟩
    intro r hr hne
    simp only [List.mem_cons, List.not_mem_nil, or_false] at hr
    rcases hr with h | h | h | h <;> subst h
    · exact absurd rfl hne
    · simp only [sSum]; linarith
    · simp only [sSum]; linarith
    · simp only [sSum]; linarith
  · refine ⟨by simp, ?_⟩
    intro r hr hne
    simp only [List.mem_cons, List.not_mem_nil, or_false] at hr
    rcases hr with h | h | h | h <;> subst h
    · simp only [dDiff]; linarith
    · exact absurd rfl hne
    · simp only [dDiff]; linarith
    · simp only [dDiff]; linarith
  · refine ⟨by simp, ?_⟩
    intro r hr hne
    simp only [List.mem_cons, List.not_mem_nil, or_false] at hr
    rcases hr with h | h | h | h <;> subst h
    · simp only [sSum]; linarith
    · simp only [sSum]; linarith
    · exact absurd rfl hne
    · simp only [sSum]; linarith
  · refine ⟨by simp, ?_⟩
    intro r hr hne
    simp only [List.mem_cons, List.not_mem_nil, or_false] at hr
    rcases hr with h | h | h | h <;> subst h
    · simp only [dDiff]; linarith
    · simp only [dDiff]; linarith
    · simp only [dDiff]; linarith
    · exact absurd rfl hne

/-- The unnormalized perspective candidate from the `W × H` rectangle onto
the A4 sheet is a scalar multiple of an axis-scaling matrix. -/
theorem rawH_rect (W H : ℚ) :
    rawH (rectQuad W H) dstA4 =
      smul3 (-(6237 / 100000) * (W ^ 2 * H ^ 2))
        ⟨21 / 100 * H, 0, 0, 0, 297 / 1000 * W, 0, 0, 0, W * H⟩ := by
  apply m3_ext <;>
    (simp only [rectQuad, dstA4, rawH, quadBasis, det3pts, adj3, mul3, smul3]; ring)

/-- The normalized perspective transform from the `W × H` rectangle onto the
A4 sheet is the diagonal metric scaling `diag(0.210/W, 0.297/H, 1)`. -/
theorem cand_rect (W H : ℚ) (hW : W ≠ 0) (hH : H ≠ 0) :
    normH (rawH (rectQuad W H) dstA4) =
      ⟨21 / 100 / W, 0, 0, 0, 297 / 1000 / H, 0, 0, 0, 1⟩ := by
  rw [rawH_rect,
    normH_smul3 _ (mul_ne_zero (by norm_num)
      (mul_ne_zero (pow_ne_zero 2 hW) (pow_ne_zero 2 hH)))]
  apply m3_ext <;> simp only [normH, smul3] <;> (field_simp; try ring)

/-- The diagonal candidate passes the solvability check of rectified
axis-aligned reference corners. -/
theorem solveOk_rect (W H : ℚ) (hW : W ≠ 0) (hH : H ≠ 0) :
    solveOk (rectQuad W H) dstA4 (normH (rawH (rectQuad W H) dstA4)) := by
  rw [cand_rect W H hW hH]
  refine ⟨⟨⟨?_, ?_⟩, ⟨?_, ?_⟩, ⟨?_, ?_⟩, ⟨?_, ?_⟩⟩, rfl, ?_⟩
  · simp [rectQuad, dstA4]
  · simp [rectQuad, dstA4]
  · simp only [rectQuad, dstA4]; field_simp; try ring
  · simp [rectQuad, dstA4]
  · simp only [rectQuad, dstA4]; field_simp; try ring
  · simp only [rectQuad, dstA4]; field_simp; try ring
  · simp [rectQuad, dstA4]
  · simp only [rectQuad, dstA4]; field_simp; try ring
  · simp only [det3]
    intro h0
    field_simp at h0

/-- `contourArea` on a four-vertex list is the absolute shoelace sum over the
closed cycle, halved. -/
theorem contourArea_quad (w x y z : Pt) :
    contourArea [w, x, y, z] =
      |cross2 w x + cross2 x y + cross2 y z + cross2 z w| / 2 := by
  simp only [contourArea, cyclePairs, List.drop, List.take, List.append_nil,
    List.cons_append, List.nil_append, List.zip_cons_cons, List.zip_nil_right,
    List.map_cons, List.map_nil, List.sum_cons, List.sum_nil]
  ring_nf

/-- Images of points under a diagonal metric scaling matrix. -/
theorem perspApply_diag (u v x y : ℚ) :
    perspApply ⟨u, 0, 0, 0, v, 0, 0, 0, 1⟩ (x, y) = (u * x, v * y) := by
  simp [perspApply]

/-- C1.  Round-trip correctness: with reference corners forming an
axis-aligned `W × H` rectangle at the pixel origin and floor corners the same
rectangle scaled by `k > 0` from that origin, `calculate_real_area` returns
exactly `k² · 0.210 · 0.297` square meters (the claim asks for this up to a
`1e-6` tolerance; in the exact-arithmetic model the equality is exact). -/
theorem roundtrip_area (W H k : ℚ) (hW : 0 < W) (hH : 0 < H) (hk : 0 < k) :
    calculate_real_area [(0, 0), (W, 0), (W, H), (0, H)]
      [(0, 0), (k * W, 0), (k * W, k * H), (0, k * H)]
      = .ok (k ^ 2 * (21 / 100) * (297 / 1000)) := by
  have e1 := rect_order W H hW hH
  have e2 := rect_order (k * W) (k * H) (mul_pos hk hW) (mul_pos hk hH)
  have hM : getPerspectiveTransform (rectQuad W H) dstA4
      = ⟨21 / 100 / W, 0, 0, 0, 297 / 1000 / H, 0, 0, 0, 1⟩ :=
    (getPersp_eq_of_ok _ _ (solveOk_rect W H hW.ne' hH.ne')).trans
      (cand_rect W H hW.ne' hH.ne')
  simp only [calculate_real_area, e1, e2]
  rw [hM]
  simp only [floorPoly, rectQuad, perspApply_diag, contourArea_quad, cross2]
  rw [show 21 / 100 / W * 0 * (297 / 1000 / H * 0) - 297 / 1000 / H * 0 * (21 / 100 / W * (k * W))
      + (21 / 100 / W * (k * W) * (297 / 1000 / H * (k * H)) - 297 / 1000 / H * 0 * (21 / 100 / W * (k * W)))
      + (21 / 100 / W * (k * W) * (297 / 1000 / H * (k * H)) - 297 / 1000 / H * (k * H) * (21 / 100 / W * 0))
      + (21 / 100 / W * 0 * (297 / 1000 / H * 0) - 297 / 1000 / H * (k * H) * (21 / 100 / W * 0))
      = 2 * (21 / 100 * k * (297 / 1000 * k)) from by field_simp; ring]
  rw [abs_of_nonneg (by positivity)]
  norm_num
  ring

/-- Evaluation helper: absolute shoelace value of a non-negative literal. -/
theorem abs_div_two_eq (x y : ℚ) (hx : 0 ≤ x) (h : x / 2 = y) : |x| / 2 = y := by
  rw [abs_of_nonneg hx, h]

/-- C1 witness at `W = 1`, `H = 1`, `k = 2`. -/
theorem roundtrip_area_witness :
    (0 : ℚ) < 1 ∧ (0 : ℚ) < 2 ∧
      calculate_real_area [(0, 0), (1, 0), (1, 1), (0, 1)]
        [(0, 0), (2 * 1, 0), (2 * 1, 2 * 1), (0, 2 * 1)]
        = .ok (2 ^ 2 * (21 / 100) * (297 / 1000)) :=
  ⟨by norm_num, by norm_num,
    roundtrip_area 1 1 2 (by norm_num) (by norm_num) (by norm_num)⟩

/-- A matrix satisfying a correspondence constraint and invertible maps the
source corner exactly onto the destination corner under perspective
division. -/
theorem perspApply_of_satEq (M : M3) (p q : Pt) (h : satEq p q M)
    (hdet : det3 M ≠ 0) : perspApply M p = q := by
  have hw : M.g * p.1 + M.h * p.2 + M.i ≠ 0 := by
    intro h0
    apply hdet
    apply det3_eq_zero_of_app M p.1 p.2
    · rw [h.1, h0, mul_zero]
    · rw [h.2, h0, mul_zero]
    · exact h0
  have c1 : (M.a * p.1 + M.b * p.2 + M.c) / (M.g * p.1 + M.h * p.2 + M.i) = q.1 := by
    rw [h.1, mul_div_assoc, div_self hw, mul_one]
  have c2 : (M.d * p.1 + M.e * p.2 + M.f) / (M.g * p.1 + M.h * p.2 + M.i) = q.2 := by
    rw [h.2, mul_div_assoc, div_self hw, mul_one]
  simp only [perspApply]
  rw [c1, c2]

/-- C2.  Homography correspondence: whenever the perspective solve on the
normalized reference corners succeeds, the returned matrix maps the four
corners, in order TL, TR, BR, BL, exactly onto `(0,0)`, `(0.210, 0)`,
`(0.210, 0.297)`, `(0, 0.297)` under perspective division. -/
theorem homography_maps_corners (pts : List Pt) (q : Quad)
    (hq : order_points pts = .ok q)
    (hs : solveOk q dstA4 (normH (rawH q dstA4))) :
    perspApply (getPerspectiveTransform q dstA4) q.1 = (0, 0) ∧
    perspApply (getPerspectiveTransform q dstA4) q.2.1 = (21 / 100, 0) ∧
    perspApply (getPerspectiveTransform q dstA4) q.2.2.1 = (21 / 100, 297 / 1000) ∧
    perspApply (getPerspectiveTransform q dstA4) q.2.2.2 = (0, 297 / 1000) := by
  rw [getPersp_eq_of_ok _ _ hs]
  obtain ⟨⟨E1, E2, E3, E4⟩, _, hdet⟩ := hs
  exact ⟨perspApply_of_satEq _ _ _ E1 hdet, perspApply_of_satEq _ _ _ E2 hdet,
    perspApply_of_satEq _ _ _ E3 hdet, perspApply_of_satEq _ _ _ E4 hdet⟩

/-- C2 witness on a `2 × 1` pixel rectangle. -/
theorem homography_maps_corners_witness :
    order_points [(0, 0), (2, 0), (2, 1), (0, 1)] = .ok ((0, 0), (2, 0), (2, 1), (0, 1)) ∧
    solveOk ((0, 0), (2, 0), (2, 1), (0, 1)) dstA4
      (normH (rawH ((0, 0), (2, 0), (2, 1), (0, 1)) dstA4)) ∧
    perspApply (getPerspectiveTransform ((0, 0), (2, 0), (2, 1), (0, 1)) dstA4)
      ((0, 0), (2, 0), (2, 1), (0, 1)).1 = (0, 0) :=
  ⟨by norm_num [order_points, pickMin, pickMax, sSum, dDiff], by norm_num [solveOk, satisfiesEqs, satEq, normH, rawH, quadBasis, det3pts, adj3,
    mul3, smul3, det3, dstA4],
    (homography_maps_corners [(0, 0), (2, 0), (2, 1), (0, 1)] _
      (by norm_num [order_points, pickMin, pickMax, sSum, dDiff]) (by norm_num [solveOk, satisfiesEqs, satEq, normH, rawH, quadBasis, det3pts, adj3,
    mul3, smul3, det3, dstA4])).1⟩

/-- C3 counterexample: on perfectly collinear reference (paper) corners the
code raises nothing — no `DegenerateGeometryError` exists in `src/app.py` —
and silently returns the wrong area `0.0` for a unit-square floor. -/
theorem degenerate_collinear_counterexample :
    calculate_real_area [(0, 0), (1, 1), (2, 2), (3, 3)] [(0, 0), (1, 0), (1, 1), (0, 1)]
      = .ok 0 := by
  norm_num [calculate_real_area, order_points, pickMin, pickMax, sSum, dDiff,
    getPerspectiveTransform, solveOk, satisfiesEqs, satEq, normH, rawH, quadBasis, det3pts,
    adj3, mul3, smul3, det3, dstA4, floorPoly, perspApply, contourArea, cyclePairs, cross2,
    zeroSolveM3]

/-- C3 amended: for reference corners lying on any affine line, the
perspective solve fails, `cv::solve` leaves the zero-filled matrix, every
floor corner is mapped to the origin, and `calculate_real_area` silently
returns the area `0` — no error of any kind is raised. -/
theorem collinear_silent_zero (a b c d t1 t2 t3 t4 : ℚ) (floor : List Pt)
    (hfne : floor ≠ []) :
    calculate_real_area
      [(a + c * t1, b + d * t1), (a + c * t2, b + d * t2),
        (a + c * t3, b + d * t3), (a + c * t4, b + d * t4)] floor = .ok 0 := by
  rcases hQ : order_points
      [(a + c * t1, b + d * t1), (a + c * t2, b + d * t2),
        (a + c * t3, b + d * t3), (a + c * t4, b + d * t4)] with ε | Q
  · simp [order_points] at hQ
  obtain ⟨m1, m2, m3, m4⟩ := order_points_mem _ _ hQ
  have online : ∀ r ∈ [((a + c * t1, b + d * t1) : Pt), (a + c * t2, b + d * t2),
      (a + c * t3, b + d * t3), (a + c * t4, b + d * t4)],
      ∃ u, r = (a + c * u, b + d * u) := by
    intro r hr
    simp only [List.mem_cons, List.not_mem_nil, or_false] at hr
    rcases hr with h | h | h | h
    exacts [⟨t1, h⟩, ⟨t2, h⟩, ⟨t3, h⟩, ⟨t4, h⟩]
  obtain ⟨u1, hu1⟩ := online _ m1
  obtain ⟨u2, hu2⟩ := online _ m2
  obtain ⟨u3, hu3⟩ := online _ m3
  obtain ⟨u4, hu4⟩ := online _ m4
  have hz : quadBasis Q = ⟨0, 0, 0, 0, 0, 0, 0, 0, 0⟩ := by
    obtain ⟨Q1, Q2, Q3, Q4⟩ := Q
    simp only at hu1 hu2 hu3 hu4
    subst hu1; subst hu2; subst hu3; subst hu4
    apply m3_ext <;> (simp only [quadBasis, det3pts]; ring)
  have hraw : rawH Q dstA4 = ⟨0, 0, 0, 0, 0, 0, 0, 0, 0⟩ := by
    rw [rawH, hz]
    apply m3_ext <;> (simp only [adj3, mul3]; ring)
  have hnot : ¬ solveOk Q dstA4 (normH (rawH Q dstA4)) := by
    rintro ⟨-, h1, -⟩
    rw [hraw] at h1
    simp [normH, smul3] at h1
  have hMz := getPersp_eq_zero_of_not _ _ hnot
  cases floor with
  | nil => exact absurd rfl hfne
  | cons f fs =>
      rcases hF : order_points (f :: fs) with ε | FR
      · simp [order_points] at hF
      simp only [calculate_real_area, hQ, hF, hMz]
      obtain ⟨F1, F2, F3, F4⟩ := FR
      simp only [floorPoly, perspApply, zeroSolveM3, contourArea_quad, cross2]
      norm_num

/-- C3 amended witness: a concrete collinear paper on the line `y = 2x`. -/
theorem collinear_silent_zero_witness :
    ([((5 : ℚ), (5 : ℚ))] : List Pt) ≠ [] ∧
    calculate_real_area
      [(0 + 1 * 0, 0 + 2 * 0), (0 + 1 * 1, 0 + 2 * 1),
        (0 + 1 * 2, 0 + 2 * 2), (0 + 1 * 3, 0 + 2 * 3)] [(5, 5)] = .ok 0 :=
  ⟨by simp, collinear_silent_zero 0 0 1 2 0 1 2 3 [(5, 5)] (by simp)⟩

/-- C4 counterexample: a floor "quadrilateral" given by only 3 points raises
nothing — no `InvalidInputError` exists in `src/app.py` — and produces a
silently computed area (the selected `rect` repeats the first point). -/
theorem wrong_count_counterexample :
    calculate_real_area [(0, 0), (2, 0), (2, 2), (0, 2)] [(0, 0), (1, 0), (1, 1)]
      = .ok (6237 / 800000) := by
  norm_num [calculate_real_area, order_points, pickMin, pickMax, sSum, dDiff,
    getPerspectiveTransform, solveOk, satisfiesEqs, satEq, normH, rawH, quadBasis, det3pts,
    adj3, mul3, smul3, det3, dstA4, floorPoly, perspApply, contourArea, cyclePairs, cross2,
    zeroSolveM3]
  exact abs_div_two_eq _ _ (by norm_num) (by norm_num)

/-- C4 amended: the code performs no point-count validation; every pair of
non-empty corner lists — 3 points, 5 points, any number at all — flows through
extrema selection and yields a silently computed area, never an error. -/
theorem area_total_on_nonempty (paper floor : List Pt)
    (hp : paper ≠ []) (hf : floor ≠ []) :
    ∃ A, calculate_real_area paper floor = .ok A := by
  cases paper with
  | nil => exact absurd rfl hp
  | cons p ps =>
      cases floor with
      | nil => exact absurd rfl hf
      | cons f fs => exact ⟨_, rfl⟩

/-- C4 amended witness: one-point lists already yield a result. -/
theorem area_total_on_nonempty_witness :
    ([((0 : ℚ), (0 : ℚ))] : List Pt) ≠ [] ∧ ([((1 : ℚ), (1 : ℚ))] : List Pt) ≠ [] ∧
    ∃ A, calculate_real_area [(0, 0)] [(1, 1)] = .ok A :=
  ⟨by simp, by simp, area_total_on_nonempty [(0, 0)] [(1, 1)] (by simp) (by simp)⟩

/-- C7.  Whenever the computation returns a value, that value is the absolute
shoelace area of the four homography-transformed metric floor corners in
their normalized cyclic order, and it is non-negative. -/
theorem shoelace_area_nonneg (paper floor : List Pt) (PR FR : Quad) (A : ℚ)
    (hp : order_points paper = .ok PR) (hf : order_points floor = .ok FR)
    (hA : calculate_real_area paper floor = .ok A) :
    A = shoelaceSpec (perspApply (getPerspectiveTransform PR dstA4) FR.1)
        (perspApply (getPerspectiveTransform PR dstA4) FR.2.1)
        (perspApply (getPerspectiveTransform PR dstA4) FR.2.2.1)
        (perspApply (getPerspectiveTransform PR dstA4) FR.2.2.2)
      ∧ 0 ≤ A := by
  simp only [calculate_real_area, hp, hf, Except.ok.injEq] at hA
  subst hA
  constructor
  · simp only [floorPoly, contourArea_quad, cross2, shoelaceSpec]
    ring_nf
  · simp only [floorPoly, contourArea_quad]
    positivity

/-- C7 witness on a concrete rectangle pair. -/
theorem shoelace_area_nonneg_witness :
    order_points [(0, 0), (2, 0), (2, 1), (0, 1)] = .ok ((0, 0), (2, 0), (2, 1), (0, 1)) ∧
    calculate_real_area [(0, 0), (2, 0), (2, 1), (0, 1)] [(0, 0), (2, 0), (2, 1), (0, 1)]
      = .ok (6237 / 100000) ∧
    0 ≤ (6237 / 100000 : ℚ) := by
  have hop : order_points [((0 : ℚ), (0 : ℚ)), (2, 0), (2, 1), (0, 1)]
      = .ok ((0, 0), (2, 0), (2, 1), (0, 1)) := by
    norm_num [order_points, pickMin, pickMax, sSum, dDiff]
  have hval : calculate_real_area [((0 : ℚ), (0 : ℚ)), (2, 0), (2, 1), (0, 1)]
      [(0, 0), (2, 0), (2, 1), (0, 1)] = .ok (6237 / 100000) := by
    norm_num [calculate_real_area, order_points, pickMin, pickMax, sSum, dDiff,
      getPerspectiveTransform, solveOk, satisfiesEqs, satEq, normH, rawH, quadBasis, det3pts,
      adj3, mul3, smul3, det3, dstA4, floorPoly, perspApply, contourArea, cyclePairs, cross2,
      zeroSolveM3]
    exact abs_div_two_eq _ _ (by norm_num) (by norm_num)
  exact ⟨hop, hval,
    (shoelace_area_nonneg [(0, 0), (2, 0), (2, 1), (0, 1)] [(0, 0), (2, 0), (2, 1), (0, 1)]
      ((0, 0), (2, 0), (2, 1), (0, 1)) ((0, 0), (2, 0), (2, 1), (0, 1)) (6237 / 100000)
      hop hop hval).2⟩

/-- C8.  Normalization ordering contract: on 4-point inputs, `rect[0]`
attains the minimum of `s = x + y` over the input, `rect[2]` its maximum,
`rect[1]` the minimum of `d = y − x`, `rect[3]` its maximum, and hence
`s(rect[0]) ≤ s(rect[2])` and `d(rect[1]) ≤ d(rect[3])`. -/
theorem ordering_contract (pts : List Pt) (q : Quad) (h4 : pts.length = 4)
    (hq : order_points pts = .ok q) :
    (q.1 ∈ pts ∧ ∀ r ∈ pts, sSum q.1 ≤ sSum r) ∧
    (q.2.2.1 ∈ pts ∧ ∀ r ∈ pts, sSum r ≤ sSum q.2.2.1) ∧
    (q.2.1 ∈ pts ∧ ∀ r ∈ pts, dDiff q.2.1 ≤ dDiff r) ∧
    (q.2.2.2 ∈ pts ∧ ∀ r ∈ pts, dDiff r ≤ dDiff q.2.2.2) ∧
    sSum q.1 ≤ sSum q.2.2.1 ∧ dDiff q.2.1 ≤ dDiff q.2.2.2 := by
  cases pts with
  | nil => simp [order_points] at hq
  | cons p ps =>
      simp only [order_points, Except.ok.injEq] at hq
      subst hq
      exact ⟨⟨pickMin_mem sSum p ps, pickMin_le sSum p ps⟩,
        ⟨pickMax_mem sSum p ps, pickMax_ge sSum p ps⟩,
        ⟨pickMin_mem dDiff p ps, pickMin_le dDiff p ps⟩,
        ⟨pickMax_mem dDiff p ps, pickMax_ge dDiff p ps⟩,
        pickMin_le sSum p ps _ (pickMax_mem sSum p ps),
        pickMin_le dDiff p ps _ (pickMax_mem dDiff p ps)⟩

/-- C8 witness on a concrete 4-point input. -/
theorem ordering_contract_witness :
    ([((3 : ℚ), (4 : ℚ)), (1, 0), (0, 2), (5, 1)] : List Pt).length = 4 ∧
    order_points [(3, 4), (1, 0), (0, 2), (5, 1)] = .ok ((1, 0), (5, 1), (3, 4), (0, 2)) ∧
    (((1 : ℚ), (0 : ℚ)) : Pt) ∈ ([(3, 4), (1, 0), (0, 2), (5, 1)] : List Pt) ∧
    sSum ((1 : ℚ), (0 : ℚ)) ≤ sSum ((3 : ℚ), (4 : ℚ)) ∧
    dDiff ((5 : ℚ), (1 : ℚ)) ≤ dDiff ((0 : ℚ), (2 : ℚ)) := by
  refine ⟨by simp, by norm_num [order_points, pickMin, pickMax, sSum, dDiff], ?_, ?_, ?_⟩
  · exact (ordering_contract [(3, 4), (1, 0), (0, 2), (5, 1)]
      ((1, 0), (5, 1), (3, 4), (0, 2)) (by simp) (by norm_num [order_points, pickMin, pickMax, sSum, dDiff])).1.1
  · exact (ordering_contract [(3, 4), (1, 0), (0, 2), (5, 1)]
      ((1, 0), (5, 1), (3, 4), (0, 2)) (by simp) (by norm_num [order_points, pickMin, pickMax, sSum, dDiff])).2.2.2.2.1
  · exact (ordering_contract [(3, 4), (1, 0), (0, 2), (5, 1)]
      ((1, 0), (5, 1), (3, 4), (0, 2)) (by simp) (by norm_num [order_points, pickMin, pickMax, sSum, dDiff])).2.2.2.2.2

/-- C9 counterexample: a 4-point input with tied extrema on which
`order_points ∘ order_points ≠ order_points` — the first-occurrence
tie-breaking of `np.argmax` reads different winners off the reordered list. -/
theorem idempotence_counterexample :
    order_points [(0, 0), (1, 3), (3, 1), (0, 2)] = .ok ((0, 0), (3, 1), (1, 3), (1, 3)) ∧
    order_points [(0, 0), (3, 1), (1, 3), (1, 3)] = .ok ((0, 0), (3, 1), (3, 1), (1, 3)) ∧
    (((0, 0), (3, 1), (3, 1), (1, 3)) : Quad) ≠ ((0, 0), (3, 1), (1, 3), (1, 3)) := by
  refine ⟨by norm_num [order_points, pickMin, pickMax, sSum, dDiff], by norm_num [order_points, pickMin, pickMax, sSum, dDiff], by norm_num⟩

/-- C9 amended: on every input whose four sum/difference extrema are attained
at unique points, normalization is idempotent: re-normalizing the normalized
quadruple returns it unchanged. -/
theorem idempotent_of_strict (pts : List Pt) (α γ β δ : Pt)
    (h1 : IsStrictMin sSum pts α) (h2 : IsStrictMin dDiff pts γ)
    (h3 : IsStrictMax sSum pts β) (h4 : IsStrictMax dDiff pts δ) :
    order_points pts = .ok (α, γ, β, δ) ∧
    order_points [α, γ, β, δ] = .ok (α, γ, β, δ) := by
  have hsub : ∀ r ∈ [α, γ, β, δ], r ∈ pts := by
    intro r hr
    simp only [List.mem_cons, List.not_mem_nil, or_false] at hr
    rcases hr with h | h | h | h <;> subst h
    exacts [h1.1, h2.1, h3.1, h4.1]
  refine ⟨order_points_eq_of_strict pts α γ β δ h1 h2 h3 h4,
    order_points_eq_of_strict _ α γ β δ ?_ ?_ ?_ ?_⟩
  · exact ⟨by simp, fun r hr hne => h1.2 r (hsub r hr) hne⟩
  · exact ⟨by simp, fun r hr hne => h2.2 r (hsub r hr) hne⟩
  · exact ⟨by simp, fun r hr hne => h3.2 r (hsub r hr) hne⟩
  · exact ⟨by simp, fun r hr hne => h4.2 r (hsub r hr) hne⟩

/-- C9 amended witness on a tie-free input. -/
theorem idempotent_of_strict_witness :
    IsStrictMin sSum [((3 : ℚ), (4 : ℚ)), (1, 0), (0, 2), (5, 1)] (1, 0) ∧
    order_points [((3 : ℚ), (4 : ℚ)), (1, 0), (0, 2), (5, 1)]
      = .ok ((1, 0), (5, 1), (3, 4), (0, 2)) ∧
    order_points [((1 : ℚ), (0 : ℚ)), (5, 1), (3, 4), (0, 2)]
      = .ok ((1, 0), (5, 1), (3, 4), (0, 2)) := by
  refine ⟨by norm_num [IsStrictMin, sSum], ?_, ?_⟩
  · exact (idempotent_of_strict [(3, 4), (1, 0), (0, 2), (5, 1)] (1, 0) (5, 1) (3, 4) (0, 2)
      (by norm_num [IsStrictMin, sSum]) (by norm_num [IsStrictMin, dDiff])
      (by norm_num [IsStrictMax, sSum]) (by norm_num [IsStrictMax, dDiff])).1
  · exact (idempotent_of_strict [(3, 4), (1, 0), (0, 2), (5, 1)] (1, 0) (5, 1) (3, 4) (0, 2)
      (by norm_num [IsStrictMin, sSum]) (by norm_num [IsStrictMin, dDiff])
      (by norm_num [IsStrictMax, sSum]) (by norm_num [IsStrictMax, dDiff])).2

/-- C6 counterexample: with tied extrema in the floor quadrilateral, listing a
different corner first changes the computed area (the second list is the
cyclic rotation of the first by one position, winding preserved). -/
theorem first_corner_counterexample :
    ([(1, 0), (2, 3), (3, 2), (0, 1)] : List Pt)
        = ([(0, 1), (1, 0), (2, 3), (3, 2)] : List Pt).rotate 1 ∧
    calculate_real_area [(0, 0), (1, 0), (1, 1), (0, 1)] [(0, 1), (1, 0), (2, 3), (3, 2)]
        = .ok (6237 / 50000) ∧
    calculate_real_area [(0, 0), (1, 0), (1, 1), (0, 1)] [(1, 0), (2, 3), (3, 2), (0, 1)]
        = .ok 0 ∧
    ((6237 : ℚ) / 50000) ≠ 0 := by
  refine ⟨by simp [List.rotate], ?_, ?_, by norm_num⟩
  · norm_num [calculate_real_area, order_points, pickMin, pickMax, sSum, dDiff,
    getPerspectiveTransform, solveOk, satisfiesEqs, satEq, normH, rawH, quadBasis, det3pts,
    adj3, mul3, smul3, det3, dstA4, floorPoly, perspApply, contourArea, cyclePairs, cross2,
    zeroSolveM3]
    exact abs_div_two_eq _ _ (by norm_num) (by norm_num)
  · norm_num [calculate_real_area, order_points, pickMin, pickMax, sSum, dDiff,
    getPerspectiveTransform, solveOk, satisfiesEqs, satEq, normH, rawH, quadBasis, det3pts,
    adj3, mul3, smul3, det3, dstA4, floorPoly, perspApply, contourArea, cyclePairs, cross2,
    zeroSolveM3]

/-- C6 amended: the estimated area is invariant under cyclic relabeling of
either corner list provided the four sum/difference extrema of each list are
attained at unique points (no ties). -/
theorem cyclic_relabel_invariance (paper floor : List Pt) (m n : ℕ)
    (pα pγ pβ pδ fα fγ fβ fδ : Pt)
    (hp1 : IsStrictMin sSum paper pα) (hp2 : IsStrictMin dDiff paper pγ)
    (hp3 : IsStrictMax sSum paper pβ) (hp4 : IsStrictMax dDiff paper pδ)
    (hf1 : IsStrictMin sSum floor fα) (hf2 : IsStrictMin dDiff floor fγ)
    (hf3 : IsStrictMax sSum floor fβ) (hf4 : IsStrictMax dDiff floor fδ) :
    calculate_real_area (paper.rotate m) (floor.rotate n)
      = calculate_real_area paper floor := by
  have hpperm : paper.Perm (paper.rotate m) := (paper.rotate_perm m).symm
  have hfperm : floor.Perm (floor.rotate n) := (floor.rotate_perm n).symm
  have e1 := order_points_eq_of_strict paper pα pγ pβ pδ hp1 hp2 hp3 hp4
  have e2 := order_points_eq_of_strict (paper.rotate m) pα pγ pβ pδ
    (isStrictMin_of_perm hpperm hp1) (isStrictMin_of_perm hpperm hp2)
    (isStrictMax_of_perm hpperm hp3) (isStrictMax_of_perm hpperm hp4)
  have e3 := order_points_eq_of_strict floor fα fγ fβ fδ hf1 hf2 hf3 hf4
  have e4 := order_points_eq_of_strict (floor.rotate n) fα fγ fβ fδ
    (isStrictMin_of_perm hfperm hf1) (isStrictMin_of_perm hfperm hf2)
    (isStrictMax_of_perm hfperm hf3) (isStrictMax_of_perm hfperm hf4)
  simp only [calculate_real_area, e1, e2, e3, e4]

/-- C6 amended witness: rotating tie-free lists by one position. -/
theorem cyclic_relabel_invariance_witness :
    IsStrictMin sSum [((0 : ℚ), (0 : ℚ)), (2, 0), (2, 1), (0, 1)] (0, 0) ∧
    calculate_real_area (([((0 : ℚ), (0 : ℚ)), (2, 0), (2, 1), (0, 1)] : List Pt).rotate 1)
        (([((3 : ℚ), (4 : ℚ)), (1, 0), (0, 2), (5, 1)] : List Pt).rotate 1)
      = calculate_real_area [(0, 0), (2, 0), (2, 1), (0, 1)] [(3, 4), (1, 0), (0, 2), (5, 1)] :=
  ⟨by norm_num [IsStrictMin, sSum],
    cyclic_relabel_invariance [(0, 0), (2, 0), (2, 1), (0, 1)] [(3, 4), (1, 0), (0, 2), (5, 1)]
      1 1 (0, 0) (2, 0) (2, 1) (0, 1) (1, 0) (5, 1) (3, 4) (0, 2)
      (by norm_num [IsStrictMin, sSum]) (by norm_num [IsStrictMin, dDiff])
      (by norm_num [IsStrictMax, sSum]) (by norm_num [IsStrictMax, dDiff])
      (by norm_num [IsStrictMin, sSum]) (by norm_num [IsStrictMin, dDiff])
      (by norm_num [IsStrictMax, sSum]) (by norm_num [IsStrictMax, dDiff])⟩

/-- C10.  `order_points` only selects existing input points (never fabricates
coordinates), and on degenerate inputs with tied extrema it may repeat one
input point and omit another, without raising any error. -/
theorem selection_invariant :
    (∀ (pts : List Pt) (q : Quad), order_points pts = .ok q →
        q.1 ∈ pts ∧ q.2.1 ∈ pts ∧ q.2.2.1 ∈ pts ∧ q.2.2.2 ∈ pts) ∧
    (order_points [(0, 0), (1, 3), (3, 1), (0, 2)] = .ok ((0, 0), (3, 1), (1, 3), (1, 3)) ∧
      (((0 : ℚ), (2 : ℚ)) : Pt) ∈ ([(0, 0), (1, 3), (3, 1), (0, 2)] : List Pt) ∧
      (((0 : ℚ), (2 : ℚ)) : Pt) ∉ ([(0, 0), (3, 1), (1, 3), (1, 3)] : List Pt)) :=
  ⟨order_points_mem, by
    refine ⟨by norm_num [order_points, pickMin, pickMax, sSum, dDiff], by norm_num, by norm_num⟩⟩

/-- C10 witness instantiating the selection property. -/
theorem selection_invariant_witness :
    order_points [((3 : ℚ), (4 : ℚ)), (1, 0), (0, 2), (5, 1)]
      = .ok ((1, 0), (5, 1), (3, 4), (0, 2)) ∧
    (((1 : ℚ), (0 : ℚ)) : Pt) ∈ ([(3, 4), (1, 0), (0, 2), (5, 1)] : List Pt) :=
  ⟨by norm_num [order_points, pickMin, pickMax, sSum, dDiff],
    (selection_invariant.1 [(3, 4), (1, 0), (0, 2), (5, 1)]
      ((1, 0), (5, 1), (3, 4), (0, 2)) (by norm_num [order_points, pickMin, pickMax, sSum, dDiff])).1⟩

/-- C5 counterexample: translating both quadrilaterals by `(0, −4)` — a pure
translation, so corner correspondence and winding order are trivially
preserved — moves the pixel origin onto the horizon line of the reference
homography; the translated 8×8 system has no normalized solution, `cv::solve`
fails, and the estimated area silently changes from `18711/400000 ≈ 0.0468 m²`
to `0`. -/
theorem similarity_counterexample :
    ([((0 : ℚ), (-4 : ℚ)), (4, -4), (3, -2), (1, -2)] : List Pt)
        = ([(0, 0), (4, 0), (3, 2), (1, 2)] : List Pt).map (simT 1 0 0 (-4)) ∧
    ([((0 : ℚ), (-4 : ℚ)), (2, -4), (2, -2), (0, -2)] : List Pt)
        = ([(0, 0), (2, 0), (2, 2), (0, 2)] : List Pt).map (simT 1 0 0 (-4)) ∧
    calculate_real_area [(0, 0), (4, 0), (3, 2), (1, 2)] [(0, 0), (2, 0), (2, 2), (0, 2)]
        = .ok (18711 / 400000) ∧
    calculate_real_area [(0, -4), (4, -4), (3, -2), (1, -2)]
        [(0, -4), (2, -4), (2, -2), (0, -2)] = .ok 0 ∧
    ((18711 : ℚ) / 400000) ≠ 0 := by
  refine ⟨by norm_num [simT], by norm_num [simT], ?_, ?_, by norm_num⟩
  · norm_num [calculate_real_area, order_points, pickMin, pickMax, sSum, dDiff,
      getPerspectiveTransform, solveOk, satisfiesEqs, satEq, normH, rawH, quadBasis, det3pts,
      adj3, mul3, smul3, det3, dstA4, floorPoly, perspApply, contourArea, cyclePairs, cross2,
      zeroSolveM3]
    exact abs_div_two_eq _ _ (by norm_num) (by norm_num)
  · norm_num [calculate_real_area, order_points, pickMin, pickMax, sSum, dDiff,
      getPerspectiveTransform, solveOk, satisfiesEqs, satEq, normH, rawH, quadBasis, det3pts,
      adj3, mul3, smul3, det3, dstA4, floorPoly, perspApply, contourArea, cyclePairs, cross2,
      zeroSolveM3]

/-- C5 amended: the estimated area is invariant under every direct similarity
of the pixel plane (rotation and uniform scaling with linear part
`[[p, −q], [q, p]]`, `(p, q) ≠ (0, 0)`, followed by a translation) applied
identically to both quadrilaterals, provided corner correspondence is
preserved by the normalization step and the perspective solve succeeds on
both the original and the transformed reference corners.  (The added solve
proviso is forced by `similarity_counterexample`: a translation can make the
transformed solve fail; for pure uniform scaling both provisos hold
automatically.) -/
theorem similarity_invariance_amended (p q t1 t2 : ℚ) (hpq : p ^ 2 + q ^ 2 ≠ 0)
    (paper floor : List Pt) (PR FR : Quad)
    (hp : order_points paper = .ok PR) (hf : order_points floor = .ok FR)
    (hp' : order_points (paper.map (simT p q t1 t2)) = .ok (mapQuad (simT p q t1 t2) PR))
    (hf' : order_points (floor.map (simT p q t1 t2)) = .ok (mapQuad (simT p q t1 t2) FR))
    (hs : solveOk PR dstA4 (normH (rawH PR dstA4)))
    (hs' : solveOk (mapQuad (simT p q t1 t2) PR) dstA4
      (normH (rawH (mapQuad (simT p q t1 t2) PR) dstA4))) :
    calculate_real_area (paper.map (simT p q t1 t2)) (floor.map (simT p q t1 t2))
      = calculate_real_area paper floor := by
  have hc2 : ((p ^ 2 + q ^ 2) ^ 2 : ℚ) ≠ 0 := pow_ne_zero 2 hpq
  have hnorm' : normH (rawH (mapQuad (simT p q t1 t2) PR) dstA4)
      = normH (mul3 (rawH PR dstA4) (adj3 (simM3 p q t1 t2))) := by
    rw [rawH_mapQuad, normH_smul3 _ hc2]
  have hXi : (rawH PR dstA4).i ≠ 0 := by
    intro h0
    have h1 : (rawH PR dstA4).i⁻¹ * (rawH PR dstA4).i = 1 := by
      simpa [normH, smul3] using hs.2.1
    rw [h0] at h1
    simp at h1
  have hYi : (mul3 (rawH PR dstA4) (adj3 (simM3 p q t1 t2))).i ≠ 0 := by
    intro h0
    have h1 : (mul3 (rawH PR dstA4) (adj3 (simM3 p q t1 t2))).i⁻¹
        * (mul3 (rawH PR dstA4) (adj3 (simM3 p q t1 t2))).i = 1 := by
      have := hs'.2.1
      rw [hnorm'] at this
      simpa [normH, smul3] using this
    rw [h0] at h1
    simp at h1
  have hpt : ∀ v : Pt,
      perspApply (normH (rawH (mapQuad (simT p q t1 t2) PR) dstA4)) (simT p q t1 t2 v)
        = perspApply (normH (rawH PR dstA4)) v := by
    intro v
    rw [hnorm']
    calc perspApply (normH (mul3 (rawH PR dstA4) (adj3 (simM3 p q t1 t2))))
          (simT p q t1 t2 v)
        = perspApply (mul3 (rawH PR dstA4) (adj3 (simM3 p q t1 t2)))
            (simT p q t1 t2 v) := by
          rw [normH]
          exact perspApply_smul3 _ (inv_ne_zero hYi) _ _
      _ = perspApply (rawH PR dstA4) v := perspApply_simT p q t1 t2 hpq _ v
      _ = perspApply (normH (rawH PR dstA4)) v := by
          rw [normH]
          exact (perspApply_smul3 _ (inv_ne_zero hXi) _ _).symm
  obtain ⟨F1, F2, F3, F4⟩ := FR
  simp only [calculate_real_area, hp, hf, hp', hf']
  rw [getPersp_eq_of_ok _ _ hs, getPersp_eq_of_ok _ _ hs']
  simp only [floorPoly, mapQuad]
  simp only [mapQuad] at hpt
  rw [hpt F1, hpt F2, hpt F3, hpt F4]

/-- C5 amended witness: rotation by the `(3,4,5)` angle combined with uniform
scaling by `5` and the translation `(1, 2)`, on a `5 × 5` square pair. -/
theorem similarity_invariance_amended_witness :
    ((4 : ℚ) ^ 2 + (3 : ℚ) ^ 2) ≠ 0 ∧
    calculate_real_area (([((0 : ℚ), (0 : ℚ)), (5, 0), (5, 5), (0, 5)] : List Pt).map (simT 4 3 1 2))
        (([((0 : ℚ), (0 : ℚ)), (5, 0), (5, 5), (0, 5)] : List Pt).map (simT 4 3 1 2))
      = calculate_real_area [(0, 0), (5, 0), (5, 5), (0, 5)] [(0, 0), (5, 0), (5, 5), (0, 5)] := by
  refine ⟨by norm_num, ?_⟩
  exact similarity_invariance_amended 4 3 1 2 (by norm_num)
    [(0, 0), (5, 0), (5, 5), (0, 5)] [(0, 0), (5, 0), (5, 5), (0, 5)]
    ((0, 0), (5, 0), (5, 5), (0, 5)) ((0, 0), (5, 0), (5, 5), (0, 5))
    (by norm_num [order_points, pickMin, pickMax, sSum, dDiff])
    (by norm_num [order_points, pickMin, pickMax, sSum, dDiff])
    (by norm_num [order_points, pickMin, pickMax, sSum, dDiff, simT, mapQuad])
    (by norm_num [order_points, pickMin, pickMax, sSum, dDiff, simT, mapQuad])
    (by norm_num [solveOk, satisfiesEqs, satEq, normH, rawH, quadBasis, det3pts, adj3,
      mul3, smul3, det3, dstA4])
    (by norm_num [solveOk, satisfiesEqs, satEq, normH, rawH, quadBasis, det3pts, adj3,
      mul3, smul3, det3, dstA4, simT, mapQuad])

end FloorAreaM
